import Mathlib

/-!
Verification development for the ENTER structured-PDF-extraction project.

The repository ships the browser UI (`app/static/app.js`) and the README; the
extraction core (layout detection, field resolution, coverage-gated LLM
fallback, deterministic result cache) is described by the specification and is
modelled here from it.  The UI definitions below are direct shallow embeddings
of the JavaScript; string helpers are re-implemented over `List Char` so that
they evaluate by kernel reduction.
-/

namespace EnterSpec

/-! ### String helpers (shallow embeddings of the JS runtime string methods) -/

/-- `String.prototype.toLowerCase` (ASCII part, which is all the code relies on). -/
def jsToLower (s : String) : String := ⟨s.data.map Char.toLower⟩

/-- `String.prototype.toUpperCase` (ASCII part). -/
def jsToUpper (s : String) : String := ⟨s.data.map Char.toUpper⟩

/-- `String.prototype.trim`: strip leading and trailing whitespace. -/
def jsTrim (s : String) : String :=
  ⟨((s.data.dropWhile Char.isWhitespace).reverse.dropWhile Char.isWhitespace).reverse⟩

/-- `String.prototype.endsWith`. -/
def strEndsWith (s suffix : String) : Bool :=
  List.isSuffixOf suffix.data s.data

/-- Whether `pat` occurs as a contiguous sublist of `l`. -/
def lcContains (pat : List Char) : List Char → Bool
  | [] => pat.isEmpty
  | c :: t => List.isPrefixOf pat (c :: t) || lcContains pat t

/-- Case-insensitive substring test, the model of one tolerant pattern match. -/
def containsSub (s pat : String) : Bool :=
  lcContains (jsToLower pat).data (jsToLower s).data

/-! ### Browser UI model — `src/app/static/app.js` -/

/-- A `File` object as the drop / change handlers see it. -/
structure JsFile where
  name : String
  type : String
  size : Nat
deriving DecidableEq, Inhabited

/-- UI state touched by the dropzone `drop` handler (app.js:143-155).
`Option`-valued fields mirror DOM elements that may be null and are guarded in
the JS by `el && (el.prop = v)`. -/
structure DropState where
  currentFile : Option JsFile
  fileNameText : Option String
  fileSizeText : Option String
  fileInfoHidden : Option Bool
  sendBtnDisabled : Option Bool
  activeTab : String
deriving DecidableEq

/-- The acceptance test of the drop handler (app.js:145):
`f.type === "application/pdf" || f.name.toLowerCase().endsWith(".pdf")`. -/
def pdfDropOk (f : JsFile) : Bool :=
  f.type == "application/pdf" || strEndsWith (jsToLower f.name) ".pdf"

def dropAlertMsg : String := "Por favor, solte um arquivo PDF válido."

/-- The dropzone `drop` handler (app.js:143-155).  `fmtBytes` abstracts the
floating-point size formatter (app.js:40-45).  Input is the first dropped file
(`e.dataTransfer?.files?.[0]`, absent when `none`); output is the new state and
the alert message, if one was raised. -/
def onDrop (fmtBytes : Nat → String) (s : DropState) (dropped : Option JsFile) :
    DropState × Option String :=
  match dropped with
  | some f =>
      if pdfDropOk f then
        ({ s with
            currentFile := some f
            fileNameText := s.fileNameText.map (fun _ => f.name)
            fileSizeText := s.fileSizeText.map (fun _ => fmtBytes f.size)
            fileInfoHidden := s.fileInfoHidden.map (fun _ => false)
            sendBtnDisabled := s.sendBtnDisabled.map (fun _ => false)
            activeTab := "result" }, none)
      else (s, some dropAlertMsg)
  | none => (s, some dropAlertMsg)

/-- UI state read and mutated by `postExtract` up to the `fetch` call
(app.js:171-210). -/
structure ExtractUIState where
  currentFile : Option JsFile
  sendBtnPresent : Bool
  sendBtnDisabled : Bool
  schemaText : String
  useLLMBox : Option Bool
  apiBaseText : Option String
  resultGridHTML : String
  debugText : String
  progressHidden : Bool
  progressWidth : Nat
deriving DecidableEq

/-- A `fetch(endpoint, \x7bmethod: "POST", body: form\x7d)` about to be issued. -/
structure PostRequest where
  endpoint : String
  form : List (String × String)
deriving DecidableEq

def emptySchemaAlert : String := "Informe o extraction_schema (ALL ou JSON)."

def invalidSchemaAlert : String :=
  "extraction_schema inválido: use \x27ALL\x27 ou um JSON válido."

/-- `postExtract` (app.js:171-210), modelled up to the point where the network
request leaves.  `jsonParseOk` abstracts whether `JSON.parse` accepts a string.
Returns the state at that point, the request issued (if any), and the alert
raised (if any). -/
def postExtract (jsonParseOk : String → Bool) (s : ExtractUIState) :
    ExtractUIState × Option PostRequest × Option String :=
  if s.currentFile.isNone || !s.sendBtnPresent then (s, none, none)
  else
    let schemaVal := jsTrim s.schemaText
    if schemaVal = "" then (s, none, some emptySchemaAlert)
    else if jsToUpper schemaVal != "ALL" && !jsonParseOk schemaVal then
      (s, none, some invalidSchemaAlert)
    else
      let form :=
        [("file", (s.currentFile.getD default).name)] ++
        (match s.useLLMBox with
         | some checked => [("use_llm", if checked then "true" else "false")]
         | none => []) ++
        [("extraction_schema", schemaVal)]
      let endpoint :=
        match s.apiBaseText with
        | some v => if jsTrim v != "" then jsTrim v else "/extract"
        | none => "/extract"
      ({ s with
          sendBtnDisabled := true
          progressHidden := false
          progressWidth := 15
          resultGridHTML := "<div class=\"placeholder\">Enviando…</div>"
          debugText := "—" },
       some ⟨endpoint, form⟩, none)

/-- The schema-text precondition under which `postExtract` proceeds to the
network: non-empty after trimming, and either (case-insensitively) `ALL` or
accepted by `JSON.parse`. -/
def schemaAccepted (jsonParseOk : String → Bool) (t : String) : Bool :=
  jsTrim t != "" && (jsToUpper (jsTrim t) == "ALL" || jsonParseOk (jsTrim t))

/-! ### Scores

Coverage scores and confidences are non-negative fractions; the source uses
floats, modelled here as numerator/denominator pairs compared by
cross-multiplication so that everything evaluates by kernel reduction. -/

/-- A non-negative fraction `num / den` (score or confidence). -/
structure Frac where
  num : Nat
  den : Nat
deriving DecidableEq, Repr

/-- Strict comparison of fractions by cross-multiplication. -/
def Frac.lt (a b : Frac) : Bool := a.num * b.den < b.num * a.den

/-! ### A computable linear order on strings

The canonical schema signature is a sorted, deduplicated field-name list; the
sort needs a total order on `String` whose decision procedure reduces in the
kernel, so we spell out the lexicographic order on the underlying char lists. -/

/-- Lexicographic `≤` on char lists, by code point. -/
def lcLe : List Char → List Char → Bool
  | [], _ => true
  | _ :: _, [] => false
  | a :: as, b :: bs =>
      if a.toNat < b.toNat then true
      else if b.toNat < a.toNat then false
      else lcLe as bs

/-- Lexicographic order on strings, as a proposition. -/
def StrLe (a b : String) : Prop := lcLe a.data b.data = true

instance : DecidableRel StrLe := fun a b =>
  inferInstanceAs (Decidable (lcLe a.data b.data = true))

theorem lcLe_total (a b : List Char) : lcLe a b = true ∨ lcLe b a = true := by
  induction a generalizing b with
  | nil => exact Or.inl rfl
  | cons x xs ih =>
    cases b with
    | nil => exact Or.inr rfl
    | cons y ys =>
      by_cases hxy : x.toNat < y.toNat
      · exact Or.inl (by simp [lcLe, hxy])
      · by_cases hyx : y.toNat < x.toNat
        · exact Or.inr (by simp [lcLe, hyx])
        · have h := ih ys
          rcases h with h | h
          · exact Or.inl (by simp [lcLe, hxy, hyx, h])
          · exact Or.inr (by simp [lcLe, hxy, hyx, h])

theorem lcLe_trans {a b c : List Char} (hab : lcLe a b = true) (hbc : lcLe b c = true) :
    lcLe a c = true := by
  induction a generalizing b c with
  | nil => rfl
  | cons x xs ih =>
    cases b with
    | nil => simp [lcLe] at hab
    | cons y ys =>
      cases c with
      | nil => simp [lcLe] at hbc
      | cons z zs =>
        simp only [lcLe] at hab hbc ⊢
        by_cases hxy : x.toNat < y.toNat
        · by_cases hyz : y.toNat < z.toNat
          · simp [Nat.lt_trans hxy hyz]
          · by_cases hzy : z.toNat < y.toNat
            · simp [lcLe, hyz, hzy] at hbc
            · have : y.toNat = z.toNat := Nat.le_antisymm (Nat.le_of_not_lt hzy) (Nat.le_of_not_lt hyz)
              simp [this ▸ hxy]
        · by_cases hyx : y.toNat < x.toNat
          · simp [lcLe, hxy, hyx] at hab
          · have hxyeq : x.toNat = y.toNat :=
              Nat.le_antisymm (Nat.le_of_not_lt hyx) (Nat.le_of_not_lt hxy)
            simp only [lcLe, hxy, hyx, if_neg, ite_false] at hab
            by_cases hyz : y.toNat < z.toNat
            · simp [hxyeq ▸ hyz]
            · by_cases hzy : z.toNat < y.toNat
              · simp [lcLe, hyz, hzy] at hbc
              · simp only [lcLe, hyz, hzy, if_neg, ite_false] at hbc
                have hxz : ¬ x.toNat < z.toNat := by omega
                have hzx : ¬ z.toNat < x.toNat := by omega
                simp [hxz, hzx, ih hab hbc]

theorem lcLe_antisymm {a b : List Char} (hab : lcLe a b = true) (hba : lcLe b a = true) :
    a = b := by
  induction a generalizing b with
  | nil =>
    cases b with
    | nil => rfl
    | cons y ys => simp [lcLe] at hba
  | cons x xs ih =>
    cases b with
    | nil => simp [lcLe] at hab
    | cons y ys =>
      simp only [lcLe] at hab hba
      by_cases hxy : x.toNat < y.toNat
      · simp [lcLe, Nat.lt_asymm hxy, hxy] at hba
      · by_cases hyx : y.toNat < x.toNat
        · simp [lcLe, hxy, hyx] at hab
        · have hn : x.toNat = y.toNat := by omega
          have hx : x = y := Char.eq_of_val_eq (UInt32.ext hn)
          exact hx ▸ congrArg (x :: ·) (ih (by simpa [lcLe, hxy, hyx] using hab)
            (by simpa [lcLe, hxy, hyx] using hba))

instance : IsTotal String StrLe :=
  ⟨fun a b => lcLe_total a.data b.data⟩

instance : IsTrans String StrLe :=
  ⟨fun _ _ _ hab hbc => lcLe_trans hab hbc⟩

instance : IsAntisymm String StrLe :=
  ⟨fun a b hab hba => by
    cases a; cases b
    exact congrArg String.mk (lcLe_antisymm hab hba)⟩

/-! ### Canonical schema signature -/

/-- Collapse duplicates, keeping the first occurrence of each name
(the order-retaining dedup of `ExtractionRequest`). -/
def dedupKeepFirst : List String → List String
  | [] => []
  | x :: xs => x :: (dedupKeepFirst xs).filter (fun y => y ≠ x)

/-- Modelled from the spec: canonical schema signature — the sorted,
deduplicated field-name list, deliberately order-independent. -/
def canonicalSig (fields : List String) : List String :=
  List.insertionSort StrLe (dedupKeepFirst fields)

/-! ### Extraction core data model

Modelled from the spec: the extraction decision pipeline (layout detection,
multi-route field resolution, coverage evaluation, threshold-gated LLM
fallback, result cache, response assembler) is not among the shipped sources;
the definitions below follow §2–§4 and §6 of the specification and the debug
shapes printed in the README. -/

/-- One extraction route for a field: a tolerant-regex or anchor-window
matcher.  `run` maps the document text to a raw matched value and a
confidence, or `none` when the route does not fire. -/
structure Route where
  id : String
  run : String → Option (String × Frac)

/-- Modelled from the spec: a layout template (`v1`/`v2`/`v3`) with its
expected anchor patterns and per-field ordered route lists. -/
structure LayoutProfile where
  id : String
  anchors : List String
  fieldRoutes : List (String × List Route)

/-- Result of resolving one requested field. -/
structure FieldMatch where
  field : String
  value : String
  confidence : Frac
  route : String
deriving DecidableEq

/-- The debug block attached to every result (README §1.5, spec §6). -/
structure DebugBlock where
  layout_final : String
  threshold : Frac
  before : Frac
  after : Frac
  per_layout : List (String × Frac)
  llm_requested : Bool
  llm_error : Option String
  per_field : List (String × String × Frac)
deriving DecidableEq

/-- Modelled from the spec: `ExtractionResult` — label, ordered field→value
map, and the debug block. -/
structure ExtractionResult where
  label : String
  fields : List (String × String)
  debug : DebugBlock
deriving DecidableEq

/-- Modelled from the spec: process-wide configuration — layout profiles and
field supersets per label, coverage threshold, fixed LLM confidence, per-field
minimum confidences, extractor version, cache salt and TTL, and the
normalizer. -/
structure PipelineConfig where
  profiles : List (String × List LayoutProfile)
  supersets : List (String × List String)
  threshold : Frac
  llmConf : Frac
  minConf : List (String × Frac)
  version : String
  salt : String
  ttl : Nat
  normalize : String → String → String

/-- The field-specific minimum confidence, default `1/2` (spec §4.2). -/
def minConfFor (cfg : PipelineConfig) (f : String) : Frac :=
  (cfg.minConf.lookup f).getD ⟨1, 2⟩

/-- The LLM transport collaborator: document text and the delegated field
names, to a field→value mapping, or `none` on transport failure / timeout. -/
def Transport : Type := String → List String → Option (List (String × String))

/-! ### Layout detection (spec §4.1) -/

/-- Whether one anchor pattern matches the text (tolerant match, modelled as
case-insensitive substring containment). -/
def anchorMatches (text anchor : String) : Bool :=
  containsSub text anchor

/-- Anchor coverage of a profile: matched anchors over expected anchors. -/
def layoutCoverage (text : String) (p : LayoutProfile) : Frac :=
  if p.anchors.isEmpty then ⟨0, 1⟩
  else ⟨p.anchors.countP (fun a => anchorMatches text a), p.anchors.length⟩

/-- Highest-scoring layout; ties break by declaration order (earlier wins). -/
def bestLayout : List (String × Frac) → Option (String × Frac)
  | [] => none
  | (pid, sc) :: rest =>
      match bestLayout rest with
      | none => some (pid, sc)
      | some (pid2, sc2) => if Frac.lt sc sc2 then some (pid2, sc2) else some (pid, sc)

/-- Either one selected profile, or the flexible fallback mode. -/
inductive LayoutSel where
  | profile (id : String)
  | flexible
deriving DecidableEq

/-- Layout selection: the best profile when its score reaches the threshold,
otherwise flexible mode.  Returns the mode, the `layout_final` tag, and the
maximum per-layout score. -/
def selectLayout (perLayout : List (String × Frac)) (threshold : Frac) :
    LayoutSel × String × Frac :=
  match bestLayout perLayout with
  | none => (.flexible, "flexible", ⟨0, 1⟩)
  | some (bid, bsc) =>
      if Frac.lt bsc threshold then (.flexible, "flexible", bsc)
      else (.profile bid, bid, bsc)

/-! ### Field resolution (spec §4.2) -/

/-- Try the ordered route list until one yields confidence at or above the
minimum; returns the raw value, its confidence, and the winning route id. -/
def tryRoutes (minC : Frac) (text : String) : List Route → Option (String × Frac × String)
  | [] => none
  | r :: rest =>
      match r.run text with
      | some (v, c) => if Frac.lt c minC then tryRoutes minC text rest else some (v, c, r.id)
      | none => tryRoutes minC text rest

/-- The route list for a field: the selected profile's routes, or, in flexible
mode, the routes of every profile for the label in priority order. -/
def routesFor (profs : List LayoutProfile) (sel : LayoutSel) (f : String) : List Route :=
  match sel with
  | .profile pid =>
      ((profs.find? (fun p => p.id == pid)).map
        (fun p => (p.fieldRoutes.lookup f).getD [])).getD []
  | .flexible => (profs.map (fun p => (p.fieldRoutes.lookup f).getD [])).flatten

/-- Resolve one field: the first successful route's normalized value, or the
unmatched record (empty value, confidence 0, route `"none"`). -/
def resolveField (cfg : PipelineConfig) (profs : List LayoutProfile) (sel : LayoutSel)
    (text f : String) : FieldMatch :=
  match tryRoutes (minConfFor cfg f) text (routesFor profs sel f) with
  | some (v, c, rid) => ⟨f, cfg.normalize f v, c, rid⟩
  | none => ⟨f, "", ⟨0, 1⟩, "none"⟩

/-! ### Coverage evaluation and LLM fallback (spec §4.4–§4.5) -/

/-- Fraction of fields resolved with at least their minimum confidence. -/
def fieldCoverage (cfg : PipelineConfig) (ms : List FieldMatch) : Frac :=
  if ms.isEmpty then ⟨0, 1⟩
  else ⟨ms.countP (fun m => !Frac.lt m.confidence (minConfFor cfg m.field)), ms.length⟩

/-- Merge one LLM-returned value into a heuristic match: only fields below
their minimum confidence are replaced; the value arrives with route `"llm"`
and the fixed LLM confidence (spec §4.5). -/
def mergeLLM (cfg : PipelineConfig) (kvs : List (String × String)) (m : FieldMatch) :
    FieldMatch :=
  if Frac.lt m.confidence (minConfFor cfg m.field) then
    match kvs.lookup m.field with
    | some v => { m with value := cfg.normalize m.field v, confidence := cfg.llmConf,
                         route := "llm" }
    | none => m
  else m

/-- Profiles registered for a label. -/
def profsOf (cfg : PipelineConfig) (label : String) : List LayoutProfile :=
  (cfg.profiles.lookup label).getD []

/-- Per-layout anchor-coverage scores for a label. -/
def perLayoutOf (cfg : PipelineConfig) (text label : String) : List (String × Frac) :=
  (profsOf cfg label).map (fun p => (p.id, layoutCoverage text p))

/-- The selected extraction mode for a document. -/
def selOf (cfg : PipelineConfig) (text label : String) : LayoutSel :=
  (selectLayout (perLayoutOf cfg text label) cfg.threshold).1

/-- The `before` coverage: the maximum per-layout score (this is the quantity
the README's debug example reports as `coverage.before`). -/
def beforeOf (cfg : PipelineConfig) (text label : String) : Frac :=
  (selectLayout (perLayoutOf cfg text label) cfg.threshold).2.2

/-- The heuristic (pre-LLM) match for one field. -/
def heurOf (cfg : PipelineConfig) (text label f : String) : FieldMatch :=
  resolveField cfg (profsOf cfg label) (selOf cfg text label) text f

/-- The heuristic matches for the processed field list. -/
def heurMatches (cfg : PipelineConfig) (text label : String) (fields : List String) :
    List FieldMatch :=
  fields.map (fun f => heurOf cfg text label f)

/-- Whether LLM fallback is eligible: `use_llm` enabled, `before` coverage
strictly below the threshold, and some field still unresolved (spec §4.4). -/
def llmEligible (cfg : PipelineConfig) (text label : String) (fields : List String)
    (useLLM : Bool) : Bool :=
  useLLM && Frac.lt (beforeOf cfg text label) cfg.threshold &&
    !((heurMatches cfg text label fields).filter
        (fun m => Frac.lt m.confidence (minConfFor cfg m.field))).isEmpty

/-- The LLM fallback step: the final match list, whether the gateway was
invoked, and the transport error, if any (spec §4.5). -/
def llmStep (cfg : PipelineConfig) (transport : Transport) (text label : String)
    (fields : List String) (useLLM : Bool) : List FieldMatch × Bool × Option String :=
  let hm := heurMatches cfg text label fields
  if llmEligible cfg text label fields useLLM then
    match transport text
        ((hm.filter (fun m => Frac.lt m.confidence (minConfFor cfg m.field))).map
          (fun m => m.field)) with
    | some kvs => (hm.map (fun m => mergeLLM cfg kvs m), true, (none : Option String))
    | none => (hm, true, some "llm_unavailable")
  else (hm, false, none)

/-- Modelled from the spec: one uncached run of the extraction decision
pipeline over the canonically ordered field list.  Returns the canonical
result and whether the LLM gateway was invoked. -/
def computeExtraction (cfg : PipelineConfig) (transport : Transport)
    (text label : String) (fields : List String) (useLLM : Bool) :
    ExtractionResult × Bool :=
  let perLayout := perLayoutOf cfg text label
  let layoutFinal := (selectLayout perLayout cfg.threshold).2.1
  let before := (selectLayout perLayout cfg.threshold).2.2
  let step := llmStep cfg transport text label fields useLLM
  let merged := step.1
  let invoked := step.2.1
  let after := if invoked then fieldCoverage cfg merged else before
  ({ label := label
     fields := merged.map (fun m => (m.field, m.value))
     debug :=
       { layout_final := layoutFinal
         threshold := cfg.threshold
         before := before
         after := after
         per_layout := perLayout
         llm_requested := invoked
         llm_error := step.2.2
         per_field := merged.map (fun m => (m.field, m.route, m.confidence)) } },
   invoked)

/-! ### Result cache (spec §4.6) -/

/-- Modelled from the spec: cache key — document content hash, label-scoped
canonical schema signature, and extractor version concatenated with the salt. -/
structure CacheKey where
  docHash : String
  label : String
  schemaSig : List String
  versionSalt : String
deriving DecidableEq

/-- A cache entry: the stored canonical result, creation time, TTL. -/
structure CacheEntry where
  result : ExtractionResult
  createdAt : Nat
  ttl : Nat

/-- The cache store, newest entry first (a later `put` shadows earlier ones). -/
def Cache : Type := List (CacheKey × CacheEntry)

/-- First entry for a key, if any. -/
def cacheFind : Cache → CacheKey → Option CacheEntry
  | [], _ => none
  | (k, e) :: rest, key => if k = key then some e else cacheFind rest key

/-- `get`: a stored entry older than its TTL is a miss (evaluated at read
time; stale entries need not be physically deleted). -/
def cacheGet (c : Cache) (k : CacheKey) (now : Nat) : Option ExtractionResult :=
  match cacheFind c k with
  | some e => if now - e.createdAt > e.ttl then none else some e.result
  | none => none

/-- `put`: write a new entry, shadowing any existing entry for the key. -/
def cachePut (c : Cache) (k : CacheKey) (r : ExtractionResult) (now ttl : Nat) : Cache :=
  (k, ⟨r, now, ttl⟩) :: c

/-! ### Pipeline entry point (spec §2, §6, §7) -/

/-- The Text Source collaborator's stable digest of the raw bytes, modelled as
the identity (any deterministic injective digest works for the claims). -/
def contentHash (docBytes : String) : String := docBytes

/-- The Text Source collaborator's page text for the document, modelled as the
bytes themselves. -/
def textOf (docBytes : String) : String := docBytes

/-- An empty request means "all": the label superset in declared order;
otherwise the request with duplicates collapsed, order retained. -/
def effectiveFields (superset requested : List String) : List String :=
  if requested.isEmpty then dedupKeepFirst superset else dedupKeepFirst requested

/-- The caller-visible hard failures (spec §7). -/
inductive ExtractError where
  | invalidSchema
  | unsupportedLabel
deriving DecidableEq

/-- The cache key for a request once the effective field list is known. -/
def cacheKeyOf (cfg : PipelineConfig) (docHash label : String) (eff : List String) :
    CacheKey :=
  ⟨docHash, label, canonicalSig eff, cfg.version ++ ":" ++ cfg.salt⟩

/-- Project the canonical (sorted-key) result onto the caller's requested
order, substituting the empty string for any absent field (spec §4.7). -/
def assemble (canonical : ExtractionResult) (eff : List String) : ExtractionResult :=
  { canonical with fields := eff.map (fun f => (f, (canonical.fields.lookup f).getD "")) }

/-- Modelled from the spec: the pipeline entry point.  Validates label and
schema, consults the cache, on a miss runs the pipeline over the canonical
field order and stores the canonical result, and in both cases assembles the
response in the caller's order.  The returned `Bool` records whether the LLM
gateway was invoked during this call. -/
def extractPipeline (cfg : PipelineConfig) (transport : Transport) (cache : Cache)
    (now : Nat) (docBytes label : String) (requested : List String) (useLLM : Bool) :
    Except ExtractError (ExtractionResult × Cache × Bool) :=
  match cfg.supersets.lookup label with
  | none => .error .unsupportedLabel
  | some ss =>
      if requested.all (fun f => decide (f ∈ ss)) then
        let eff := effectiveFields ss requested
        let key := cacheKeyOf cfg (contentHash docBytes) label eff
        match cacheGet cache key now with
        | some res => .ok (assemble res eff, cache, false)
        | none =>
            let out := computeExtraction cfg transport (textOf docBytes) label
              (canonicalSig eff) useLLM
            .ok (assemble out.1 eff, cachePut cache key out.1 now cfg.ttl, out.2)
      else .error .invalidSchema

/-! ### Single-flight computation (spec §4.6, §5)

Modelled from the spec: the per-key claim-and-publish protocol that serializes
the first computation for a cache key and fans its result out to concurrently
arriving requests.  `compute` is the (deterministic) pipeline run for a key. -/

/-- Protocol state: requests currently computing a key, requests waiting on an
in-flight key, published per-key results, and the responses handed out. -/
structure Flight where
  runners : List (CacheKey × Nat)
  waiters : List (CacheKey × Nat)
  published : List (CacheKey × ExtractionResult)
  served : List (Nat × CacheKey × ExtractionResult)

/-- The empty protocol state. -/
def Flight.init : Flight := ⟨[], [], [], []⟩

/-- One interleaved protocol event.  A request arriving for an unclaimed,
unpublished key claims it and starts computing; one arriving while the key is
in flight only joins the waiters; one arriving after publication is served
from the published result; a completing runner publishes `compute k` and
serves every waiter of the key with it. -/
inductive FlightStep (compute : CacheKey → ExtractionResult) : Flight → Flight → Prop
  | arriveClaim (s : Flight) (k : CacheKey) (rid : Nat)
      (hrun : ∀ e ∈ s.runners, e.1 ≠ k) (hpub : ∀ e ∈ s.published, e.1 ≠ k) :
      FlightStep compute s { s with runners := (k, rid) :: s.runners }
  | arriveWait (s : Flight) (k : CacheKey) (rid : Nat)
      (hrun : ∃ rid0, (k, rid0) ∈ s.runners) :
      FlightStep compute s { s with waiters := (k, rid) :: s.waiters }
  | arriveHit (s : Flight) (k : CacheKey) (rid : Nat) (res : ExtractionResult)
      (hpub : (k, res) ∈ s.published) :
      FlightStep compute s { s with served := (rid, k, res) :: s.served }
  | complete (s : Flight) (k : CacheKey) (rid : Nat)
      (hrun : (k, rid) ∈ s.runners) :
      FlightStep compute s
        { runners := s.runners.filter (fun e => e.1 ≠ k)
          waiters := s.waiters.filter (fun e => e.1 ≠ k)
          published := (k, compute k) :: s.published
          served := ((s.waiters.filter (fun e => e.1 = k)).map
                      (fun e => (e.2, k, compute k)))
                    ++ (rid, k, compute k) :: s.served }

/-- States reachable from the empty state by interleaved events. -/
inductive FlightReach (compute : CacheKey → ExtractionResult) : Flight → Prop
  | init : FlightReach compute Flight.init
  | step {s t : Flight} : FlightReach compute s → FlightStep compute s t →
      FlightReach compute t

/-- Configurations whose heuristic routes never use the reserved route tags
`"none"` (unmatched) and `"llm"` (LLM-resolved). -/
def RoutesWellFormed (cfg : PipelineConfig) : Prop :=
  ∀ ps ∈ cfg.profiles, ∀ p ∈ ps.2, ∀ fr ∈ p.fieldRoutes, ∀ rt ∈ fr.2,
    rt.id ≠ "none" ∧ rt.id ≠ "llm"

/-! ### Concrete fixtures used to evaluate the model on closed inputs -/

/-- A tolerant-regex route for the `nome` field. -/
def routeNome : Route :=
  ⟨"regex:nome", fun t => if containsSub t "nome:" then some ("Alice", ⟨9, 10⟩) else none⟩

/-- A small `v1` profile for the `carteira_oab` label. -/
def profileV1 : LayoutProfile :=
  ⟨"v1", ["oab", "inscricao"], [("nome", [routeNome])]⟩

/-- A small concrete pipeline configuration. -/
def cfg0 : PipelineConfig :=
  { profiles := [("carteira_oab", [profileV1])]
    supersets := [("carteira_oab", ["nome", "inscricao", "situacao"])]
    threshold := ⟨9, 10⟩
    llmConf := ⟨7, 10⟩
    minConf := []
    version := "1.0"
    salt := "s1"
    ttl := 100
    normalize := fun _ v => v }

/-- A transport stub that always fails (timeout / unavailable). -/
def trDown : Transport := fun _ _ => none

/-- A document whose text matches both `v1` anchors and the `nome` route. -/
def docCovered : String := "OAB Inscricao nome: Alice"

/-- A document matching no anchors and no routes. -/
def docBlank : String := "nada aqui"

/-- An empty cache. -/
def cache0 : Cache := []

/-- A concrete cache key used to exercise the single-flight protocol. -/
def key0 : CacheKey := ⟨"doc", "carteira_oab", ["nome"], "1.0:s1"⟩

/-- A minimal extraction result used as a single-flight computation output. -/
def res0 : ExtractionResult :=
  { label := "carteira_oab"
    fields := [("nome", "Alice")]
    debug :=
      { layout_final := "v1"
        threshold := ⟨9, 10⟩
        before := ⟨1, 1⟩
        after := ⟨1, 1⟩
        per_layout := [("v1", ⟨1, 1⟩)]
        llm_requested := false
        llm_error := none
        per_field := [("nome", "regex:nome", ⟨9, 10⟩)] } }

/-! ### Helper lemmas -/

theorem mem_dedupKeepFirst {x : String} : ∀ {l : List String},
    x ∈ dedupKeepFirst l ↔ x ∈ l
  | [] => Iff.rfl
  | a :: l => by
      simp only [dedupKeepFirst, List.mem_cons, List.mem_filter,
        mem_dedupKeepFirst (l := l), decide_eq_true_eq]
      by_cases hxa : x = a
      · simp [hxa]
      · simp [hxa]

theorem nodup_dedupKeepFirst : ∀ l : List String, (dedupKeepFirst l).Nodup
  | [] => List.nodup_nil
  | a :: l => by
      simp only [dedupKeepFirst]
      refine List.Nodup.cons ?_ (List.Nodup.filter _ (nodup_dedupKeepFirst l))
      intro hmem
      rcases List.mem_filter.mp hmem with ⟨-, hne⟩
      simp at hne

theorem dedupKeepFirst_eq_self : ∀ {l : List String}, l.Nodup → dedupKeepFirst l = l
  | [], _ => rfl
  | a :: l, h => by
      rcases List.nodup_cons.mp h with ⟨hna, hnd⟩
      simp only [dedupKeepFirst, dedupKeepFirst_eq_self hnd]
      refine congrArg (a :: ·) (List.filter_eq_self.mpr ?_)
      intro y hy
      simp only [decide_eq_true_eq]
      exact fun hya => hna (hya ▸ hy)

theorem lookup_graph {α : Type} (g : String → α) {f : String} :
    ∀ {l : List String}, f ∈ l → (l.map (fun x => (x, g x))).lookup f = some (g f)
  | [], h => absurd h (List.not_mem_nil f)
  | a :: l, h => by
      by_cases hfa : f = a
      · simp [List.lookup, hfa]
      · have hmem : f ∈ l := by
          rcases List.mem_cons.mp h with h1 | h1
          · exact absurd h1 hfa
          · exact h1
        have hne : (f == a) = false := beq_eq_false_iff_ne.mpr hfa
        simp [List.lookup, hne, lookup_graph g hmem]

theorem lookup_mem {β : Type} {k : String} {v : β} :
    ∀ {l : List (String × β)}, l.lookup k = some v → (k, v) ∈ l
  | [], h => by simp [List.lookup] at h
  | (a, b) :: l, h => by
      by_cases hka : k = a
      · subst hka
        simp only [List.lookup, beq_self_eq_true, if_pos] at h
        cases h
        exact List.mem_cons_self _ _
      · have hne : (k == a) = false := beq_eq_false_iff_ne.mpr hka
        simp only [List.lookup, hne] at h
        exact List.mem_cons_of_mem _ (lookup_mem h)

theorem tryRoutes_conf {minC : Frac} {text : String} :
    ∀ {rs : List Route} {v : String} {c : Frac} {rid : String},
      tryRoutes minC text rs = some (v, c, rid) → Frac.lt c minC = false
  | [], _, _, _, h => by simp [tryRoutes] at h
  | r :: rest, v, c, rid, h => by
      simp only [tryRoutes] at h
      cases hr : r.run text with
      | none =>
          rw [hr] at h
          exact tryRoutes_conf h
      | some p =>
          rw [hr] at h
          obtain ⟨pv, pc⟩ := p
          dsimp only at h
          by_cases hlt : Frac.lt pc minC = true
          · rw [if_pos hlt] at h
            exact tryRoutes_conf h
          · rw [if_neg hlt] at h
            cases h
            exact Bool.not_eq_true _ ▸ hlt

theorem tryRoutes_winner {minC : Frac} {text : String} :
    ∀ {rs : List Route} {v : String} {c : Frac} {rid : String},
      tryRoutes minC text rs = some (v, c, rid) → ∃ rt ∈ rs, rt.id = rid
  | [], _, _, _, h => by simp [tryRoutes] at h
  | r :: rest, v, c, rid, h => by
      simp only [tryRoutes] at h
      cases hr : r.run text with
      | none =>
          rw [hr] at h
          rcases tryRoutes_winner h with ⟨rt, hmem, hid⟩
          exact ⟨rt, List.mem_cons_of_mem _ hmem, hid⟩
      | some p =>
          rw [hr] at h
          obtain ⟨pv, pc⟩ := p
          dsimp only at h
          by_cases hlt : Frac.lt pc minC = true
          · rw [if_pos hlt] at h
            rcases tryRoutes_winner h with ⟨rt, hmem, hid⟩
            exact ⟨rt, List.mem_cons_of_mem _ hmem, hid⟩
          · rw [if_neg hlt] at h
            cases h
            exact ⟨r, List.mem_cons_self _ _, rfl⟩

theorem routesFor_reserved {cfg : PipelineConfig} (hwf : RoutesWellFormed cfg)
    {label f : String} {sel : LayoutSel} {rt : Route}
    (hrt : rt ∈ routesFor (profsOf cfg label) sel f) :
    rt.id ≠ "none" ∧ rt.id ≠ "llm" := by
  have hprof : ∀ p ∈ profsOf cfg label, ∀ rl,
      p.fieldRoutes.lookup f = some rl → ∀ r ∈ rl, r.id ≠ "none" ∧ r.id ≠ "llm" := by
    intro p hp rl hrl r hr
    cases hc : cfg.profiles.lookup label with
    | none => simp [profsOf, hc] at hp
    | some ps =>
        have hps : (label, ps) ∈ cfg.profiles := lookup_mem hc
        have hp' : p ∈ ps := by simpa [profsOf, hc] using hp
        exact hwf (label, ps) hps p hp' (f, rl) (lookup_mem hrl) r hr
  cases sel with
  | profile pid =>
      cases hfind : (profsOf cfg label).find? (fun p => p.id == pid) with
      | none => simp [routesFor, hfind] at hrt
      | some p =>
          have hp : p ∈ profsOf cfg label := List.mem_of_find?_eq_some hfind
          cases hlr : p.fieldRoutes.lookup f with
          | none => simp [routesFor, hfind, hlr] at hrt
          | some rl =>
              have : rt ∈ rl := by simpa [routesFor, hfind, hlr] using hrt
              exact hprof p hp rl hlr rt this
  | flexible =>
      simp only [routesFor, List.mem_flatten] at hrt
      rcases hrt with ⟨l, hl, hrtl⟩
      rcases List.mem_map.mp hl with ⟨p, hp, rfl⟩
      cases hlr : p.fieldRoutes.lookup f with
      | none => simp [hlr] at hrtl
      | some rl =>
          have : rt ∈ rl := by simpa [hlr] using hrtl
          exact hprof p hp rl hlr rt this

theorem heurOf_field (cfg : PipelineConfig) (text label f : String) :
    (heurOf cfg text label f).field = f := by
  unfold heurOf resolveField
  cases tryRoutes (minConfFor cfg f) text
      (routesFor (profsOf cfg label) (selOf cfg text label) f) with
  | none => rfl
  | some p => rfl

theorem heurOf_route_none {cfg : PipelineConfig} (hwf : RoutesWellFormed cfg)
    {text label f : String} (h : (heurOf cfg text label f).route = "none") :
    heurOf cfg text label f = ⟨f, "", ⟨0, 1⟩, "none"⟩ := by
  unfold heurOf resolveField at h ⊢
  cases htr : tryRoutes (minConfFor cfg f) text
      (routesFor (profsOf cfg label) (selOf cfg text label) f) with
  | none => rfl
  | some p =>
      rw [htr] at h
      rcases tryRoutes_winner htr with ⟨rt, hmem, hid⟩
      exact absurd (hid.trans h) (routesFor_reserved hwf hmem).1

theorem heurOf_lowconf {cfg : PipelineConfig} {text label f : String}
    (h : Frac.lt (heurOf cfg text label f).confidence (minConfFor cfg f) = true) :
    heurOf cfg text label f = ⟨f, "", ⟨0, 1⟩, "none"⟩ := by
  unfold heurOf resolveField at h ⊢
  cases htr : tryRoutes (minConfFor cfg f) text
      (routesFor (profsOf cfg label) (selOf cfg text label) f) with
  | none => rfl
  | some p =>
      rw [htr] at h
      have := tryRoutes_conf htr
      simp at h
      rw [this] at h
      cases h

theorem mergeLLM_field (cfg : PipelineConfig) (kvs : List (String × String))
    (m : FieldMatch) : (mergeLLM cfg kvs m).field = m.field := by
  unfold mergeLLM
  by_cases h : Frac.lt m.confidence (minConfFor cfg m.field) = true
  · rw [if_pos h]
    cases kvs.lookup m.field <;> rfl
  · rw [if_neg h]

theorem mergeLLM_route_none {cfg : PipelineConfig} {kvs : List (String × String)}
    {m : FieldMatch} (h : (mergeLLM cfg kvs m).route = "none") :
    mergeLLM cfg kvs m = m := by
  unfold mergeLLM at h ⊢
  by_cases hlt : Frac.lt m.confidence (minConfFor cfg m.field) = true
  · rw [if_pos hlt] at h ⊢
    cases hkv : kvs.lookup m.field with
    | none => rfl
    | some v =>
        rw [hkv] at h
        simp at h
  · rw [if_neg hlt]

/-- The final match list of a run is the image of a single per-field function
whose output keeps the field name and sends route-`"none"` fields to the
unmatched record. -/
theorem llmStep_shape {cfg : PipelineConfig} (hwf : RoutesWellFormed cfg)
    (transport : Transport) (text label : String) (fields : List String)
    (useLLM : Bool) :
    ∃ g : String → FieldMatch,
      (llmStep cfg transport text label fields useLLM).1 = fields.map g ∧
      (∀ f, (g f).field = f) ∧
      (∀ f, (g f).route = "none" → g f = ⟨f, "", ⟨0, 1⟩, "none"⟩) := by
  unfold llmStep
  by_cases he : llmEligible cfg text label fields useLLM = true
  · rw [if_pos he]
    cases htr : transport text
        (((heurMatches cfg text label fields).filter
          (fun m => Frac.lt m.confidence (minConfFor cfg m.field))).map
            (fun m => m.field)) with
    | none =>
        refine ⟨fun f => heurOf cfg text label f, rfl, heurOf_field cfg text label, ?_⟩
        intro f hroute
        exact heurOf_route_none hwf hroute
    | some kvs =>
        refine ⟨fun f => mergeLLM cfg kvs (heurOf cfg text label f), ?_, ?_, ?_⟩
        · simp [heurMatches, List.map_map]
        · intro f
          rw [mergeLLM_field]
          exact heurOf_field cfg text label f
        · intro f hroute
          dsimp only at hroute ⊢
          have hm := mergeLLM_route_none hroute
          rw [hm] at hroute ⊢
          exact heurOf_route_none hwf hroute
  · rw [if_neg he]
    refine ⟨fun f => heurOf cfg text label f, rfl, heurOf_field cfg text label, ?_⟩
    intro f hroute
    exact heurOf_route_none hwf hroute

theorem mem_canonicalSig {x : String} {l : List String} :
    x ∈ canonicalSig l ↔ x ∈ l := by
  unfold canonicalSig
  rw [(List.perm_insertionSort StrLe _).mem_iff, mem_dedupKeepFirst]

theorem canonicalSig_set_eq {l1 l2 : List String} (h : ∀ x, x ∈ l1 ↔ x ∈ l2) :
    canonicalSig l1 = canonicalSig l2 := by
  have hperm : List.Perm (dedupKeepFirst l1) (dedupKeepFirst l2) :=
    (List.perm_ext_iff_of_nodup (nodup_dedupKeepFirst l1) (nodup_dedupKeepFirst l2)).mpr
      (fun a => by rw [mem_dedupKeepFirst, mem_dedupKeepFirst]; exact h a)
  exact List.eq_of_perm_of_sorted
    ((List.perm_insertionSort StrLe _).trans
      (hperm.trans (List.perm_insertionSort StrLe _).symm))
    (List.sorted_insertionSort StrLe _) (List.sorted_insertionSort StrLe _)

theorem cacheKeyOf_set_eq (cfg : PipelineConfig) (dh label : String)
    (ss : List String) {r1 r2 : List String} (h : ∀ x, x ∈ r1 ↔ x ∈ r2) :
    cacheKeyOf cfg dh label (effectiveFields ss r1)
      = cacheKeyOf cfg dh label (effectiveFields ss r2) := by
  cases r1 with
  | nil =>
      cases r2 with
      | nil => rfl
      | cons y ys => exact absurd ((h y).mpr (List.mem_cons_self y ys)) (List.not_mem_nil y)
  | cons x xs =>
      cases r2 with
      | nil => exact absurd ((h x).mp (List.mem_cons_self x xs)) (List.not_mem_nil x)
      | cons y ys =>
          have e1 : effectiveFields ss (x :: xs) = dedupKeepFirst (x :: xs) := by
            simp [effectiveFields]
          have e2 : effectiveFields ss (y :: ys) = dedupKeepFirst (y :: ys) := by
            simp [effectiveFields]
          unfold cacheKeyOf
          rw [e1, e2]
          exact congrArg (fun sg => CacheKey.mk dh label sg (cfg.version ++ ":" ++ cfg.salt))
            (canonicalSig_set_eq (fun a => by
              rw [mem_dedupKeepFirst, mem_dedupKeepFirst]; exact h a))

theorem cacheGet_put_fresh (c : Cache) (k : CacheKey) (r : ExtractionResult)
    (now ttl now2 : Nat) (h : now2 - now ≤ ttl) :
    cacheGet (cachePut c k r now ttl) k now2 = some r := by
  simp [cacheGet, cachePut, cacheFind, Nat.not_lt.mpr h]

theorem assemble_debug (c : ExtractionResult) (eff : List String) :
    (assemble c eff).debug = c.debug := rfl

theorem assemble_keys (c : ExtractionResult) (eff : List String) :
    (assemble c eff).fields.map Prod.fst = eff := by
  show (eff.map fun f => (f, (c.fields.lookup f).getD "")).map Prod.fst = eff
  rw [List.map_map]
  have hid : (Prod.fst ∘ fun f : String => (f, (c.fields.lookup f).getD "")) = id := rfl
  rw [hid, List.map_id]

theorem pipeline_ok_all (cfg : PipelineConfig) (transport : Transport) (cache : Cache)
    (now : Nat) (doc label : String) (req : List String) (u : Bool)
    (ss : List String) (r : ExtractionResult) (c2 : Cache) (inv : Bool)
    (hss : cfg.supersets.lookup label = some ss)
    (h : extractPipeline cfg transport cache now doc label req u = .ok (r, c2, inv)) :
    req.all (fun f => decide (f ∈ ss)) = true := by
  unfold extractPipeline at h
  rw [hss] at h
  dsimp only at h
  by_cases hall : req.all (fun f => decide (f ∈ ss)) = true
  · exact hall
  · rw [if_neg hall] at h
    cases h

theorem pipeline_miss_eq (cfg : PipelineConfig) (transport : Transport) (cache : Cache)
    (now : Nat) (doc label : String) (req : List String) (u : Bool) (ss : List String)
    (hss : cfg.supersets.lookup label = some ss)
    (hall : req.all (fun f => decide (f ∈ ss)) = true)
    (hmiss : cacheGet cache
      (cacheKeyOf cfg (contentHash doc) label (effectiveFields ss req)) now = none) :
    extractPipeline cfg transport cache now doc label req u =
      .ok (assemble (computeExtraction cfg transport (textOf doc) label
              (canonicalSig (effectiveFields ss req)) u).1 (effectiveFields ss req),
           cachePut cache
             (cacheKeyOf cfg (contentHash doc) label (effectiveFields ss req))
             (computeExtraction cfg transport (textOf doc) label
               (canonicalSig (effectiveFields ss req)) u).1 now cfg.ttl,
           (computeExtraction cfg transport (textOf doc) label
             (canonicalSig (effectiveFields ss req)) u).2) := by
  unfold extractPipeline
  rw [hss]
  dsimp only
  rw [if_pos hall, hmiss]

theorem pipeline_hit_eq (cfg : PipelineConfig) (transport : Transport) (cache : Cache)
    (now : Nat) (doc label : String) (req : List String) (u : Bool) (ss : List String)
    (res : ExtractionResult)
    (hss : cfg.supersets.lookup label = some ss)
    (hall : req.all (fun f => decide (f ∈ ss)) = true)
    (hhit : cacheGet cache
      (cacheKeyOf cfg (contentHash doc) label (effectiveFields ss req)) now = some res) :
    extractPipeline cfg transport cache now doc label req u =
      .ok (assemble res (effectiveFields ss req), cache, false) := by
  unfold extractPipeline
  rw [hss]
  dsimp only
  rw [if_pos hall, hhit]

theorem computeExtraction_graph {cfg : PipelineConfig} (hwf : RoutesWellFormed cfg)
    (transport : Transport) (text label : String) (sig : List String) (u : Bool) :
    ∃ g : String → FieldMatch,
      (∀ f, (g f).field = f) ∧
      (∀ f, (g f).route = "none" → g f = ⟨f, "", ⟨0, 1⟩, "none"⟩) ∧
      (computeExtraction cfg transport text label sig u).1.fields
        = sig.map (fun f => (f, (g f).value)) ∧
      (computeExtraction cfg transport text label sig u).1.debug.per_field
        = sig.map (fun f => (f, (g f).route, (g f).confidence)) := by
  obtain ⟨g, hmap, hfield, hnone⟩ := llmStep_shape hwf transport text label sig u
  refine ⟨g, hfield, hnone, ?_, ?_⟩
  · show (llmStep cfg transport text label sig u).1.map (fun m => (m.field, m.value)) = _
    rw [hmap, List.map_map]
    exact List.map_congr_left (fun x _ => by simp [Function.comp, hfield x])
  · show (llmStep cfg transport text label sig u).1.map
        (fun m => (m.field, m.route, m.confidence)) = _
    rw [hmap, List.map_map]
    exact List.map_congr_left (fun x _ => by simp [Function.comp, hfield x])

theorem llmEligible_false_of_covered {cfg : PipelineConfig} {text label : String}
    (fields : List String) (u : Bool)
    (hge : Frac.lt (beforeOf cfg text label) cfg.threshold = false) :
    llmEligible cfg text label fields u = false := by
  unfold llmEligible
  rw [hge]
  simp

theorem llmStep_transport_down {cfg : PipelineConfig} {transport : Transport}
    (htr : ∀ t fs, transport t fs = none) (text label : String)
    (fields : List String) (u : Bool) :
    (llmStep cfg transport text label fields u).1 = heurMatches cfg text label fields ∧
    (llmStep cfg transport text label fields u).2.2
      = (if llmEligible cfg text label fields u then some "llm_unavailable" else none) ∧
    (llmStep cfg transport text label fields u).2.1
      = llmEligible cfg text label fields u := by
  unfold llmStep
  by_cases he : llmEligible cfg text label fields u = true
  · rw [if_pos he, htr]
    simp [he]
  · rw [if_neg he]
    simp [Bool.eq_false_iff.mpr he]

/-! ## Claim theorems: browser UI (`src/app/static/app.js`) -/

/-- **C9.** For every drop event on the dropzone: when a first dropped file
exists and is a PDF by MIME type or (lower-cased) `.pdf` name suffix, the
handler records it as `currentFile`, shows its name and formatted size, and
enables the send button; for any other drop it raises the alert and leaves the
state unchanged; when the send button exists (and was disabled), it ends up
enabled iff such a file was dropped. -/
theorem drop_handler_accepts_only_pdf (fmt : Nat → String) (s : DropState)
    (d : Option JsFile) :
    (∀ f, d = some f → pdfDropOk f = true →
      (onDrop fmt s d).1.currentFile = some f ∧
      (onDrop fmt s d).1.fileNameText = s.fileNameText.map (fun _ => f.name) ∧
      (onDrop fmt s d).1.fileSizeText = s.fileSizeText.map (fun _ => fmt f.size) ∧
      (onDrop fmt s d).1.sendBtnDisabled = s.sendBtnDisabled.map (fun _ => false) ∧
      (onDrop fmt s d).2 = none) ∧
    ((∀ f, d = some f → pdfDropOk f = false) →
      (onDrop fmt s d).1 = s ∧ (onDrop fmt s d).2 = some dropAlertMsg) ∧
    (s.sendBtnDisabled = some true →
      ((onDrop fmt s d).1.sendBtnDisabled = some false ↔
        ∃ f, d = some f ∧ pdfDropOk f = true)) := by
  refine ⟨?_, ?_, ?_⟩
  · rintro f rfl hok
    simp [onDrop, hok]
  · intro hbad
    cases d with
    | none => simp [onDrop]
    | some f => simp [onDrop, hbad f rfl]
  · intro hbtn
    cases d with
    | none => simp [onDrop, hbtn]
    | some f =>
        by_cases hok : pdfDropOk f
        · simp [onDrop, hok, hbtn]
        · simp [onDrop, hok, hbtn]

/-- Witness for C9: dropping a concrete PDF file on a concrete state stores it
and enables the send button with no alert. -/
theorem drop_handler_accepts_only_pdf_witness :
    (onDrop (fun _ => "3 B")
        ⟨none, some "", some "", some true, some true, "result"⟩
        (some ⟨"oab_1.pdf", "application/pdf", 3⟩)).1.currentFile
      = some ⟨"oab_1.pdf", "application/pdf", 3⟩ ∧
    (onDrop (fun _ => "3 B")
        ⟨none, some "", some "", some true, some true, "result"⟩
        (some ⟨"oab_1.pdf", "application/pdf", 3⟩)).2 = none := by
  have h := (drop_handler_accepts_only_pdf (fun _ => "3 B")
      ⟨none, some "", some "", some true, some true, "result"⟩
      (some ⟨"oab_1.pdf", "application/pdf", 3⟩)).1
      ⟨"oab_1.pdf", "application/pdf", 3⟩ rfl (by decide)
  exact ⟨h.1, h.2.2.2.2⟩

/-- **C8.** `postExtract` issues the POST request iff a file is selected (and
the send button exists) and the trimmed schema text is accepted (non-empty and
`ALL` case-insensitively, or accepted by `JSON.parse`); whenever no request is
issued, the UI state is completely unchanged. -/
theorem postExtract_requires_valid_schema (jsonOk : String → Bool)
    (s : ExtractUIState) :
    ((postExtract jsonOk s).2.1.isSome = true ↔
      (s.currentFile.isSome = true ∧ s.sendBtnPresent = true ∧
        schemaAccepted jsonOk s.schemaText = true)) ∧
    ((postExtract jsonOk s).2.1 = none → (postExtract jsonOk s).1 = s) := by
  cases hcf : s.currentFile with
  | none => exact ⟨by simp [postExtract, hcf], by simp [postExtract, hcf]⟩
  | some cf =>
    cases hbp : s.sendBtnPresent with
    | false => exact ⟨by simp [postExtract, hcf, hbp], by simp [postExtract, hcf, hbp]⟩
    | true =>
      by_cases h2 : jsTrim s.schemaText = ""
      · exact ⟨by simp [postExtract, hcf, hbp, h2, schemaAccepted],
          by simp [postExtract, hcf, hbp, h2]⟩
      · by_cases h3 : jsToUpper (jsTrim s.schemaText) = "ALL"
        · exact ⟨by simp [postExtract, hcf, hbp, h2, h3, schemaAccepted],
            by simp [postExtract, hcf, hbp, h2, h3]⟩
        · by_cases h4 : jsonOk (jsTrim s.schemaText)
          · exact ⟨by simp [postExtract, hcf, hbp, h2, h3, h4, schemaAccepted],
              by simp [postExtract, hcf, hbp, h2, h3, h4]⟩
          · exact ⟨by simp [postExtract, hcf, hbp, h2, h3, h4, schemaAccepted],
              by simp [postExtract, hcf, hbp, h2, h3, h4]⟩

/-- Witness for C8: with no file selected nothing is sent and nothing changes;
with a file and schema text `ALL` a request is issued. -/
theorem postExtract_requires_valid_schema_witness :
    (postExtract (fun _ => false)
        ⟨none, true, false, "not json", none, none, "", "", true, 0⟩).1
      = ⟨none, true, false, "not json", none, none, "", "", true, 0⟩ ∧
    (postExtract (fun _ => false)
        ⟨some ⟨"a.pdf", "application/pdf", 1⟩, true, false, "ALL", none, none,
          "", "", true, 0⟩).2.1.isSome = true := by
  constructor
  · exact (postExtract_requires_valid_schema (fun _ => false)
      ⟨none, true, false, "not json", none, none, "", "", true, 0⟩).2 rfl
  · exact (postExtract_requires_valid_schema (fun _ => false)
      ⟨some ⟨"a.pdf", "application/pdf", 1⟩, true, false, "ALL", none, none,
        "", "", true, 0⟩).1.mpr ⟨rfl, rfl, by decide⟩

/-- **C10.** Whenever `postExtract` actually sends a request, the form body
contains `extraction_schema` with the trimmed schema text, and — whenever the
`use_llm` checkbox element exists — a `use_llm` field that is `"true"` when
checked and `"false"` when unchecked (never omitted). -/
theorem postExtract_form_fields (jsonOk : String → Bool) (s : ExtractUIState)
    (req : PostRequest) (h : (postExtract jsonOk s).2.1 = some req) :
    ("extraction_schema", jsTrim s.schemaText) ∈ req.form ∧
    (∀ checked, s.useLLMBox = some checked →
      ("use_llm", if checked then "true" else "false") ∈ req.form) := by
  cases hcf : s.currentFile with
  | none => simp [postExtract, hcf] at h
  | some cf =>
    cases hbp : s.sendBtnPresent with
    | false => simp [postExtract, hcf, hbp] at h
    | true =>
      by_cases h2 : jsTrim s.schemaText = ""
      · simp [postExtract, hcf, hbp, h2] at h
      · obtain ⟨e, fm⟩ := req
        cases hbox : s.useLLMBox with
        | none =>
          by_cases h3 : jsToUpper (jsTrim s.schemaText) = "ALL"
          · simp [postExtract, hcf, hbp, h2, h3, hbox] at h
            rcases h with ⟨-, hf⟩
            subst hf
            exact ⟨by simp, by simp [hbox]⟩
          · by_cases h4 : jsonOk (jsTrim s.schemaText)
            · simp [postExtract, hcf, hbp, h2, h3, h4, hbox] at h
              rcases h with ⟨-, hf⟩
              subst hf
              exact ⟨by simp, by simp [hbox]⟩
            · simp [postExtract, hcf, hbp, h2, h3, h4, hbox] at h
        | some checked =>
          by_cases h3 : jsToUpper (jsTrim s.schemaText) = "ALL"
          · simp [postExtract, hcf, hbp, h2, h3, hbox] at h
            rcases h with ⟨-, hf⟩
            subst hf
            refine ⟨by simp, ?_⟩
            rintro c hc
            cases hc
            simp
          · by_cases h4 : jsonOk (jsTrim s.schemaText)
            · simp [postExtract, hcf, hbp, h2, h3, h4, hbox] at h
              rcases h with ⟨-, hf⟩
              subst hf
              refine ⟨by simp, ?_⟩
              rintro c hc
              cases hc
              simp
            · simp [postExtract, hcf, hbp, h2, h3, h4, hbox] at h

/-- Witness for C10: a concrete send with the checkbox present but unchecked
carries `use_llm=false` explicitly, plus the schema text. -/
theorem postExtract_form_fields_witness :
    ("extraction_schema", "ALL") ∈
      (PostRequest.mk "/extract"
        [("file", "a.pdf"), ("use_llm", "false"), ("extraction_schema", "ALL")]).form ∧
    ("use_llm", "false") ∈
      (PostRequest.mk "/extract"
        [("file", "a.pdf"), ("use_llm", "false"), ("extraction_schema", "ALL")]).form := by
  have h := postExtract_form_fields (fun _ => false)
    ⟨some ⟨"a.pdf", "application/pdf", 1⟩, true, false, "ALL", some false, none,
      "", "", true, 0⟩
    (PostRequest.mk "/extract"
      [("file", "a.pdf"), ("use_llm", "false"), ("extraction_schema", "ALL")])
    (by decide)
  exact ⟨h.1, h.2 false rfl⟩

/-! ## Claim theorems: extraction core (modelled from the spec) -/

/-- **C1.** Cache determinism: after a first call that computed and cached
(a miss), a second call with the identical document bytes, schema, version and
salt — within the entry's TTL — returns the byte-identical `ExtractionResult`,
leaves the cache unchanged, and never invokes the LLM gateway, even if the
first call did. -/
theorem cache_determinism_second_call_no_llm
    (cfg : PipelineConfig) (transport : Transport) (cache : Cache)
    (now1 now2 : Nat) (doc label : String) (req : List String) (u : Bool)
    (ss : List String) (r1 : ExtractionResult) (c1 : Cache) (inv1 : Bool)
    (hss : cfg.supersets.lookup label = some ss)
    (hmiss : cacheGet cache (cacheKeyOf cfg (contentHash doc) label
        (effectiveFields ss req)) now1 = none)
    (h1 : extractPipeline cfg transport cache now1 doc label req u = .ok (r1, c1, inv1))
    (hfresh : now2 - now1 ≤ cfg.ttl) :
    extractPipeline cfg transport c1 now2 doc label req u = .ok (r1, c1, false) := by
  have hall := pipeline_ok_all cfg transport cache now1 doc label req u ss r1 c1 inv1 hss h1
  rw [pipeline_miss_eq cfg transport cache now1 doc label req u ss hss hall hmiss] at h1
  simp only [Except.ok.injEq, Prod.mk.injEq] at h1
  obtain ⟨hr, hc, -⟩ := h1
  subst hr
  subst hc
  exact pipeline_hit_eq cfg transport _ now2 doc label req u ss _ hss hall
    (cacheGet_put_fresh cache _ _ now1 cfg.ttl now2 hfresh)

/-- Witness for C1: two concrete identical calls; the second reproduces the
first result from the cache without invoking the gateway. -/
theorem cache_determinism_second_call_no_llm_witness :
    ∃ r1 c1 inv1,
      extractPipeline cfg0 trDown cache0 0 docCovered "carteira_oab" ["nome"] true
        = .ok (r1, c1, inv1) ∧
      extractPipeline cfg0 trDown c1 5 docCovered "carteira_oab" ["nome"] true
        = .ok (r1, c1, false) := by
  obtain ⟨r1, c1, inv1, h1⟩ :
      ∃ r1 c1 inv1, extractPipeline cfg0 trDown cache0 0 docCovered "carteira_oab"
        ["nome"] true = .ok (r1, c1, inv1) := ⟨_, _, _, rfl⟩
  exact ⟨r1, c1, inv1, h1,
    cache_determinism_second_call_no_llm cfg0 trDown cache0 0 5 docCovered
      "carteira_oab" ["nome"] true ["nome", "inscricao", "situacao"] r1 c1 inv1
      rfl rfl h1 (by decide)⟩

/-- **C3.** The key order of the returned field map equals the caller's
request order (for any duplicate-free requested sequence, in particular every
permutation of a field set), regardless of the internal canonical processing
order. -/
theorem response_preserves_request_order
    (cfg : PipelineConfig) (transport : Transport) (cache : Cache) (now : Nat)
    (doc label : String) (req : List String) (u : Bool)
    (r : ExtractionResult) (c2 : Cache) (inv : Bool)
    (hnd : req.Nodup) (hne : req ≠ [])
    (h : extractPipeline cfg transport cache now doc label req u = .ok (r, c2, inv)) :
    r.fields.map Prod.fst = req := by
  cases hss : cfg.supersets.lookup label with
  | none => simp [extractPipeline, hss] at h
  | some ss =>
      have hall := pipeline_ok_all cfg transport cache now doc label req u ss r c2 inv hss h
      have hreqE : req.isEmpty = false := by
        cases req with
        | nil => exact absurd rfl hne
        | cons a l => rfl
      have heff : effectiveFields ss req = req := by
        unfold effectiveFields
        rw [if_neg (by simp [hreqE]), dedupKeepFirst_eq_self hnd]
      cases hget : cacheGet cache (cacheKeyOf cfg (contentHash doc) label
          (effectiveFields ss req)) now with
      | some res =>
          rw [pipeline_hit_eq cfg transport cache now doc label req u ss res hss hall hget]
            at h
          simp only [Except.ok.injEq, Prod.mk.injEq] at h
          obtain ⟨hr, -, -⟩ := h
          rw [← hr, assemble_keys, heff]
      | none =>
          rw [pipeline_miss_eq cfg transport cache now doc label req u ss hss hall hget]
            at h
          simp only [Except.ok.injEq, Prod.mk.injEq] at h
          obtain ⟨hr, -, -⟩ := h
          rw [← hr, assemble_keys, heff]

/-- Witness for C3: a concrete request in non-canonical order gets its keys
back in exactly the requested order. -/
theorem response_preserves_request_order_witness :
    ∃ r c2 inv,
      extractPipeline cfg0 trDown cache0 0 docCovered "carteira_oab"
        ["situacao", "nome"] false = .ok (r, c2, inv) ∧
      r.fields.map Prod.fst = ["situacao", "nome"] := by
  obtain ⟨r, c2, inv, h⟩ :
      ∃ r c2 inv, extractPipeline cfg0 trDown cache0 0 docCovered "carteira_oab"
        ["situacao", "nome"] false = .ok (r, c2, inv) := ⟨_, _, _, rfl⟩
  exact ⟨r, c2, inv, h,
    response_preserves_request_order cfg0 trDown cache0 0 docCovered "carteira_oab"
      ["situacao", "nome"] false r c2 inv (by decide) (by decide) h⟩

/-- **C4.** Threshold gating: on a fresh run whose maximum per-layout coverage
is at or above the threshold, the debug block records `llm_requested = false`
and the gateway is not invoked, even when the caller enabled `use_llm`. -/
theorem threshold_gates_llm_request
    (cfg : PipelineConfig) (transport : Transport) (cache : Cache) (now : Nat)
    (doc label : String) (req : List String) (u : Bool) (ss : List String)
    (r : ExtractionResult) (c2 : Cache) (inv : Bool)
    (hss : cfg.supersets.lookup label = some ss)
    (hmiss : cacheGet cache (cacheKeyOf cfg (contentHash doc) label
        (effectiveFields ss req)) now = none)
    (h : extractPipeline cfg transport cache now doc label req u = .ok (r, c2, inv))
    (hge : Frac.lt (beforeOf cfg (textOf doc) label) cfg.threshold = false) :
    r.debug.llm_requested = false ∧ inv = false := by
  have hall := pipeline_ok_all cfg transport cache now doc label req u ss r c2 inv hss h
  rw [pipeline_miss_eq cfg transport cache now doc label req u ss hss hall hmiss] at h
  simp only [Except.ok.injEq, Prod.mk.injEq] at h
  obtain ⟨hr, -, hi⟩ := h
  have hstep : llmStep cfg transport (textOf doc) label
      (canonicalSig (effectiveFields ss req)) u
      = (heurMatches cfg (textOf doc) label (canonicalSig (effectiveFields ss req)),
         false, none) := by
    unfold llmStep
    rw [if_neg (by simp [llmEligible_false_of_covered _ u hge])]
  constructor
  · rw [← hr, assemble_debug]
    unfold computeExtraction
    rw [hstep]
  · rw [← hi]
    unfold computeExtraction
    rw [hstep]

/-- Witness for C4: a concrete document fully covering the `v1` anchors, with
`use_llm = true`, still yields `llm_requested = false`. -/
theorem threshold_gates_llm_request_witness :
    ∃ r c2 inv,
      extractPipeline cfg0 trDown cache0 0 docCovered "carteira_oab"
        ["nome", "situacao"] true = .ok (r, c2, inv) ∧
      r.debug.llm_requested = false ∧ inv = false := by
  obtain ⟨r, c2, inv, h⟩ :
      ∃ r c2 inv, extractPipeline cfg0 trDown cache0 0 docCovered "carteira_oab"
        ["nome", "situacao"] true = .ok (r, c2, inv) := ⟨_, _, _, rfl⟩
  exact ⟨r, c2, inv, h,
    threshold_gates_llm_request cfg0 trDown cache0 0 docCovered "carteira_oab"
      ["nome", "situacao"] true ["nome", "inscricao", "situacao"] r c2 inv
      rfl rfl h (by decide)⟩

/-- **C2.** On a fresh run, every requested field name appears as a key of the
returned field map, and a field whose winning route is `"none"` (matched by no
route, the LLM included) maps to exactly the empty string. -/
theorem every_requested_field_present_unmatched_empty
    (cfg : PipelineConfig) (transport : Transport) (cache : Cache) (now : Nat)
    (doc label : String) (req : List String) (u : Bool) (ss : List String)
    (r : ExtractionResult) (c2 : Cache) (inv : Bool)
    (hwf : RoutesWellFormed cfg)
    (hss : cfg.supersets.lookup label = some ss)
    (hmiss : cacheGet cache (cacheKeyOf cfg (contentHash doc) label
        (effectiveFields ss req)) now = none)
    (h : extractPipeline cfg transport cache now doc label req u = .ok (r, c2, inv)) :
    ∀ f ∈ req, ∃ v, r.fields.lookup f = some v ∧
      (∀ q, (f, "none", q) ∈ r.debug.per_field → v = "") := by
  have hall := pipeline_ok_all cfg transport cache now doc label req u ss r c2 inv hss h
  rw [pipeline_miss_eq cfg transport cache now doc label req u ss hss hall hmiss] at h
  simp only [Except.ok.injEq, Prod.mk.injEq] at h
  obtain ⟨hr, -, -⟩ := h
  obtain ⟨g, hfield, hnone, hfields, hperf⟩ :=
    computeExtraction_graph hwf transport (textOf doc) label
      (canonicalSig (effectiveFields ss req)) u
  intro f hf
  have hreqE : req.isEmpty = false := by
    cases req with
    | nil => cases hf
    | cons a l => rfl
  have heffmem : f ∈ effectiveFields ss req := by
    unfold effectiveFields
    rw [if_neg (by simp [hreqE])]
    exact mem_dedupKeepFirst.mpr hf
  have hsigmem : f ∈ canonicalSig (effectiveFields ss req) := mem_canonicalSig.mpr heffmem
  refine ⟨((computeExtraction cfg transport (textOf doc) label
      (canonicalSig (effectiveFields ss req)) u).1.fields.lookup f).getD "", ?_, ?_⟩
  · rw [← hr]
    exact lookup_graph _ heffmem
  · intro q hq
    rw [← hr, assemble_debug, hperf] at hq
    rcases List.mem_map.mp hq with ⟨x, -, hxe⟩
    simp only [Prod.mk.injEq] at hxe
    obtain ⟨hx1, hx2, -⟩ := hxe
    rw [hx1] at hx2
    have hlook : (computeExtraction cfg transport (textOf doc) label
        (canonicalSig (effectiveFields ss req)) u).1.fields.lookup f
        = some ((g f).value) := by
      rw [hfields]
      exact lookup_graph _ hsigmem
    rw [hlook, hnone f hx2]
    rfl

/-- Witness for C2: the unroutable field `situacao` is present with value `""`
in a concrete run. -/
theorem every_requested_field_present_unmatched_empty_witness :
    ∃ r c2 inv,
      extractPipeline cfg0 trDown cache0 0 docCovered "carteira_oab"
        ["nome", "situacao"] false = .ok (r, c2, inv) ∧
      ∃ v, r.fields.lookup "situacao" = some v ∧
        (∀ q, ("situacao", "none", q) ∈ r.debug.per_field → v = "") := by
  obtain ⟨r, c2, inv, h⟩ :
      ∃ r c2 inv, extractPipeline cfg0 trDown cache0 0 docCovered "carteira_oab"
        ["nome", "situacao"] false = .ok (r, c2, inv) := ⟨_, _, _, rfl⟩
  refine ⟨r, c2, inv, h, ?_⟩
  have hwf0 : RoutesWellFormed cfg0 := by
    intro ps hps p hp fr hfr rt hrt
    simp only [cfg0, List.mem_singleton] at hps
    subst hps
    simp only [profileV1, List.mem_singleton] at hp
    subst hp
    simp only [profileV1, List.mem_singleton] at hfr
    subst hfr
    simp only [List.mem_singleton] at hrt
    subst hrt
    exact ⟨by decide, by decide⟩
  exact every_requested_field_present_unmatched_empty cfg0 trDown cache0 0 docCovered
    "carteira_oab" ["nome", "situacao"] false ["nome", "inscricao", "situacao"]
    r c2 inv hwf0 rfl rfl h "situacao" (by decide)

/-- **C5.** When the LLM transport fails (or times out), the pipeline still
returns an `ExtractionResult` (never a hard failure, given a valid label and
schema): if the gateway was invoked, `debug.llm_error` is set, and every field
the heuristics left below its minimum confidence comes back as `""`. -/
theorem llm_transport_failure_degrades_gracefully
    (cfg : PipelineConfig) (transport : Transport) (cache : Cache) (now : Nat)
    (doc label : String) (req : List String) (u : Bool) (ss : List String)
    (htr : ∀ t fs, transport t fs = none)
    (hss : cfg.supersets.lookup label = some ss)
    (hall : req.all (fun f => decide (f ∈ ss)) = true)
    (hmiss : cacheGet cache (cacheKeyOf cfg (contentHash doc) label
        (effectiveFields ss req)) now = none) :
    ∃ r c2 inv,
      extractPipeline cfg transport cache now doc label req u = .ok (r, c2, inv) ∧
      (inv = true → r.debug.llm_error = some "llm_unavailable") ∧
      ∀ f ∈ req, Frac.lt (heurOf cfg (textOf doc) label f).confidence
          (minConfFor cfg f) = true → r.fields.lookup f = some "" := by
  obtain ⟨hm1, hm2, hm3⟩ := llmStep_transport_down htr (textOf doc) label
    (canonicalSig (effectiveFields ss req)) u
  refine ⟨_, _, _,
    pipeline_miss_eq cfg transport cache now doc label req u ss hss hall hmiss, ?_, ?_⟩
  · intro hinv
    have he : llmEligible cfg (textOf doc) label
        (canonicalSig (effectiveFields ss req)) u = true := by
      rw [← hm3]
      exact hinv
    rw [assemble_debug]
    have herr : (computeExtraction cfg transport (textOf doc) label
        (canonicalSig (effectiveFields ss req)) u).1.debug.llm_error
        = (llmStep cfg transport (textOf doc) label
            (canonicalSig (effectiveFields ss req)) u).2.2 := rfl
    rw [herr, hm2, if_pos he]
  · intro f hf hlow
    have hreqE : req.isEmpty = false := by
      cases req with
      | nil => cases hf
      | cons a l => rfl
    have heffmem : f ∈ effectiveFields ss req := by
      unfold effectiveFields
      rw [if_neg (by simp [hreqE])]
      exact mem_dedupKeepFirst.mpr hf
    have hsigmem : f ∈ canonicalSig (effectiveFields ss req) :=
      mem_canonicalSig.mpr heffmem
    have h1 : (assemble (computeExtraction cfg transport (textOf doc) label
        (canonicalSig (effectiveFields ss req)) u).1
          (effectiveFields ss req)).fields.lookup f
        = some (((computeExtraction cfg transport (textOf doc) label
            (canonicalSig (effectiveFields ss req)) u).1.fields.lookup f).getD "") :=
      lookup_graph _ heffmem
    have h2 : (computeExtraction cfg transport (textOf doc) label
        (canonicalSig (effectiveFields ss req)) u).1.fields
        = (canonicalSig (effectiveFields ss req)).map
            (fun x => (x, (heurOf cfg (textOf doc) label x).value)) := by
      have hshow : (computeExtraction cfg transport (textOf doc) label
          (canonicalSig (effectiveFields ss req)) u).1.fields
          = (llmStep cfg transport (textOf doc) label
              (canonicalSig (effectiveFields ss req)) u).1.map
                (fun m => (m.field, m.value)) := rfl
      rw [hshow, hm1]
      unfold heurMatches
      rw [List.map_map]
      exact List.map_congr_left (fun x _ => by simp [Function.comp, heurOf_field])
    rw [h1, h2, lookup_graph _ hsigmem]
    rw [heurOf_lowconf hlow]
    rfl

/-- Witness for C5: on a document with no anchor coverage and a failing
transport, the run returns with `llm_error` set and `situacao` equal to `""`. -/
theorem llm_transport_failure_degrades_gracefully_witness :
    ∃ r c2 inv,
      extractPipeline cfg0 trDown cache0 0 docBlank "carteira_oab"
        ["situacao"] true = .ok (r, c2, inv) ∧
      (inv = true → r.debug.llm_error = some "llm_unavailable") ∧
      r.fields.lookup "situacao" = some "" := by
  obtain ⟨r, c2, inv, h, herr, hfields⟩ :=
    llm_transport_failure_degrades_gracefully cfg0 trDown cache0 0 docBlank
      "carteira_oab" ["situacao"] true ["nome", "inscricao", "situacao"]
      (fun _ _ => rfl) rfl (by decide) rfl
  exact ⟨r, c2, inv, h, herr, hfields "situacao" (by decide) (by decide)⟩

/-- **C6.** Requests over the same field set (permuted or duplicate-extended)
on the same document, label, version and salt share the cache key, so after a
first computed call the reordered request is a cache hit that does not invoke
the LLM. -/
theorem permuted_schema_same_cache_key_hit
    (cfg : PipelineConfig) (transport : Transport) (cache : Cache)
    (now1 now2 : Nat) (doc label : String) (req1 req2 : List String) (u1 u2 : Bool)
    (ss : List String) (r1 : ExtractionResult) (c1 : Cache) (inv1 : Bool)
    (hset : ∀ x, x ∈ req1 ↔ x ∈ req2)
    (hss : cfg.supersets.lookup label = some ss)
    (hmiss : cacheGet cache (cacheKeyOf cfg (contentHash doc) label
        (effectiveFields ss req1)) now1 = none)
    (h1 : extractPipeline cfg transport cache now1 doc label req1 u1 = .ok (r1, c1, inv1))
    (hfresh : now2 - now1 ≤ cfg.ttl) :
    cacheKeyOf cfg (contentHash doc) label (effectiveFields ss req1)
      = cacheKeyOf cfg (contentHash doc) label (effectiveFields ss req2) ∧
    ∃ r2, extractPipeline cfg transport c1 now2 doc label req2 u2
      = .ok (r2, c1, false) := by
  have hkey := cacheKeyOf_set_eq cfg (contentHash doc) label ss hset
  refine ⟨hkey, ?_⟩
  have hall1 := pipeline_ok_all cfg transport cache now1 doc label req1 u1 ss r1 c1 inv1
    hss h1
  have hall2 : req2.all (fun f => decide (f ∈ ss)) = true := by
    rw [List.all_eq_true] at hall1 ⊢
    intro x hx
    exact hall1 x ((hset x).mpr hx)
  rw [pipeline_miss_eq cfg transport cache now1 doc label req1 u1 ss hss hall1 hmiss] at h1
  simp only [Except.ok.injEq, Prod.mk.injEq] at h1
  obtain ⟨-, hc, -⟩ := h1
  subst hc
  have hhit := cacheGet_put_fresh cache
    (cacheKeyOf cfg (contentHash doc) label (effectiveFields ss req1))
    ((computeExtraction cfg transport (textOf doc) label
      (canonicalSig (effectiveFields ss req1)) u1).1) now1 cfg.ttl now2 hfresh
  nth_rewrite 2 [hkey] at hhit
  exact ⟨_, pipeline_hit_eq cfg transport _ now2 doc label req2 u2 ss _ hss hall2 hhit⟩

/-- Witness for C6: a duplicate-extended permutation of a previously computed
request shares the key and hits the cache. -/
theorem permuted_schema_same_cache_key_hit_witness :
    ∃ r1 c1 inv1 r2,
      extractPipeline cfg0 trDown cache0 0 docCovered "carteira_oab"
        ["nome", "situacao"] true = .ok (r1, c1, inv1) ∧
      extractPipeline cfg0 trDown c1 7 docCovered "carteira_oab"
        ["situacao", "nome", "nome"] false = .ok (r2, c1, false) := by
  obtain ⟨r1, c1, inv1, h1⟩ :
      ∃ r1 c1 inv1, extractPipeline cfg0 trDown cache0 0 docCovered "carteira_oab"
        ["nome", "situacao"] true = .ok (r1, c1, inv1) := ⟨_, _, _, rfl⟩
  obtain ⟨-, r2, h2⟩ :=
    permuted_schema_same_cache_key_hit cfg0 trDown cache0 0 7 docCovered "carteira_oab"
      ["nome", "situacao"] ["situacao", "nome", "nome"] true false
      ["nome", "inscricao", "situacao"] r1 c1 inv1
      (fun x => by simp [List.mem_cons, or_comm]) rfl rfl h1 (by decide)
  exact ⟨r1, c1, inv1, r2, h1, h2⟩

/-- **C7.** Single flight: in every reachable protocol state, at most one
computation runs per key (the runner keys are duplicate-free), a running key is
never already published, each key is published at most once with exactly the
computation's result, and every response handed out — to the runner, to
waiters, and to later arrivals — is that single computation's result, never a
recomputation. -/
theorem single_flight_per_key (compute : CacheKey → ExtractionResult) (s : Flight)
    (h : FlightReach compute s) :
    (s.runners.map Prod.fst).Nodup ∧
    (s.published.map Prod.fst).Nodup ∧
    (∀ e ∈ s.runners, ∀ e2 ∈ s.published, e.1 ≠ e2.1) ∧
    (∀ e ∈ s.published, e.2 = compute e.1) ∧
    (∀ w ∈ s.served, w.2.2 = compute w.2.1) := by
  induction h with
  | init => simp [Flight.init]
  | step hreach hstep ih =>
      obtain ⟨ih1, ih2, ih3, ih4, ih5⟩ := ih
      cases hstep with
      | arriveClaim k rid hrun hpub =>
          refine ⟨?_, ih2, ?_, ih4, ih5⟩
          · simp only [List.map_cons]
            refine List.nodup_cons.mpr ⟨?_, ih1⟩
            intro hk
            rcases List.mem_map.mp hk with ⟨e, he, hek⟩
            exact hrun e he hek
          · intro e he e2 he2
            rcases List.mem_cons.mp he with rfl | he'
            · exact fun hq => hpub e2 he2 hq.symm
            · exact ih3 e he' e2 he2
      | arriveWait k rid hrun => exact ⟨ih1, ih2, ih3, ih4, ih5⟩
      | arriveHit k rid res hpub =>
          refine ⟨ih1, ih2, ih3, ih4, ?_⟩
          intro w hw
          rcases List.mem_cons.mp hw with rfl | hw'
          · exact ih4 (k, res) hpub
          · exact ih5 w hw'
      | complete k rid hrun =>
          refine ⟨?_, ?_, ?_, ?_, ?_⟩
          · exact List.Nodup.sublist ((List.filter_sublist _).map Prod.fst) ih1
          · simp only [List.map_cons]
            refine List.nodup_cons.mpr ⟨?_, ih2⟩
            intro hk
            rcases List.mem_map.mp hk with ⟨e2, he2, hek⟩
            exact ih3 (k, rid) hrun e2 he2 hek.symm
          · intro e he e2 he2
            have he' := List.mem_of_mem_filter he
            have hne : e.1 ≠ k := by simpa using List.of_mem_filter he
            rcases List.mem_cons.mp he2 with rfl | he2'
            · exact hne
            · exact ih3 e he' e2 he2'
          · intro e he
            rcases List.mem_cons.mp he with rfl | he'
            · rfl
            · exact ih4 e he'
          · intro w hw
            rcases List.mem_append.mp hw with hw1 | hw2
            · rcases List.mem_map.mp hw1 with ⟨e, he, rfl⟩
              rfl
            · rcases List.mem_cons.mp hw2 with rfl | hw'
              · rfl
              · exact ih5 w hw'

/-- Witness for C7: the invariant, instantiated at the concrete state reached
after one request claims `key0`. -/
theorem single_flight_per_key_witness :
    (([(key0, 0)] : List (CacheKey × Nat)).map Prod.fst).Nodup ∧
    (([] : List (CacheKey × ExtractionResult)).map Prod.fst).Nodup ∧
    (∀ e ∈ [(key0, (0 : Nat))], ∀ e2 ∈ ([] : List (CacheKey × ExtractionResult)),
      e.1 ≠ e2.1) ∧
    (∀ e ∈ ([] : List (CacheKey × ExtractionResult)),
      e.2 = (fun _ => res0) e.1) ∧
    (∀ w ∈ ([] : List (Nat × CacheKey × ExtractionResult)),
      w.2.2 = (fun _ => res0) w.2.1) := by
  have hreach : FlightReach (fun _ => res0) ⟨[(key0, 0)], [], [], []⟩ :=
    FlightReach.step FlightReach.init
      (FlightStep.arriveClaim Flight.init key0 0
        (by intro e he; simp [Flight.init] at he)
        (by intro e he; simp [Flight.init] at he))
  exact single_flight_per_key (fun _ => res0) ⟨[(key0, 0)], [], [], []⟩ hreach

end EnterSpec
